import Mathlib

/-!
Shallow embedding of the `ga_rs` genetic-algorithm engine (`src/lib.rs`)
together with the two example domains (`src/bin/ga_calc.rs`,
`src/bin/ga_strings.rs`), and proofs of the specification claims.

Conventions used throughout:
* `f32` values are embedded as their 32-bit patterns (`Nat` below `2^32`);
  the engine never does float arithmetic on fitness values, it only sorts
  them with `f32::total_cmp`, which is a pure function of the bit pattern.
* `i32` values (the calculator VM) are embedded as `Int` reduced modulo
  `2^32` into `[-2^31, 2^31)` where the source wraps.
* Rust code that can panic is embedded in `Option`; `none` is a panic.
* The parallel iterators of rayon are embedded by the sequential lists
  they produce: `take`, slice-`drop`, `step_by(2)` and `interleave` all
  have deterministic element order, and `par_sort_by` is modelled by a
  comparison sort with the same comparator (every claim proved about the
  sorted output is invariant under which sorted permutation the unstable
  parallel sort returns).
* Calls to a thread-local random source are embedded as explicit function
  parameters (one draw per unit of work), universally quantified in the
  theorems, so every possible sequence of random draws is covered.
-/

/-! ## `f32::total_cmp` on bit patterns

Rust's `f32::total_cmp` reinterprets the bits as `i32`, then flips the
low 31 bits of negative values (`left ^= (((left >> 31) as u32) >> 1) as i32`)
and compares the resulting `i32` keys.  `total_cmpKey` is exactly that key,
as a mathematical integer. -/

/-- The `i32` comparison key `f32::total_cmp` derives from a bit pattern:
for a non-negative pattern (sign bit clear) the key is the pattern itself;
for a negative pattern the low 31 bits are flipped and the value is read
as a two's-complement `i32`. -/
def total_cmpKey (b : Nat) : Int :=
  let p : Nat := b % 2 ^ 32
  if p < 2 ^ 31 then (p : Int) else ((p ^^^ 0x7FFFFFFF : Nat) : Int) - 2 ^ 32

/-- `f32::total_cmp` on bit patterns: compare the two `i32` keys. -/
def total_cmp (a b : Nat) : Ordering :=
  compare (total_cmpKey a) (total_cmpKey b)

/-! ## Engine data model (`src/lib.rs`) -/

/-- `GradedIndividual` pairs an individual with its fitness score
(an `f32`, embedded as its bit pattern). -/
structure GradedIndividual (I : Type) where
  individual : I
  fitness : Nat
  deriving DecidableEq, Repr

/-- `Population`: an ordered collection of graded individuals. -/
structure Population (I : Type) where
  individuals : List (GradedIndividual I)
  deriving DecidableEq, Repr

/-- The comparator closure `|a, b| b.fitness.total_cmp(&a.fitness)` passed to
`par_sort_by`, as the boolean "may come first" relation a comparison sort
consumes: `a` may precede `b` iff the comparator does not say `Greater`. -/
def popLe {I : Type} (a b : GradedIndividual I) : Bool :=
  decide (total_cmp b.fitness a.fitness ≠ Ordering.gt)

/-- Insert into a sorted list, keeping it sorted w.r.t. `le`. -/
def insertSorted {α : Type} (le : α → α → Bool) (x : α) : List α → List α
  | [] => [x]
  | y :: ys => if le x y then x :: y :: ys else y :: insertSorted le x ys

/-- Comparison sort (models `par_sort_by`: same comparator, and the claims
proved about the result hold for any sorted permutation). -/
def sortBy {α : Type} (le : α → α → Bool) : List α → List α
  | [] => []
  | x :: xs => insertSorted le x (sortBy le xs)

/-- `population.par_sort_by(|a, b| b.fitness.total_cmp(&a.fitness))`. -/
def sortPop {I : Type} (l : List (GradedIndividual I)) : List (GradedIndividual I) :=
  sortBy popLe l

/-- rayon's `step_by(2)`: every second element, starting with the first. -/
def stepEvery2 {α : Type} : List α → List α
  | [] => []
  | [x] => [x]
  | x :: _ :: rest => x :: stepEvery2 rest

/-- rayon's `interleave`: alternate elements of the two sequences starting
with the first; once one side is exhausted, the rest of the other follows. -/
def interleave {α : Type} : List α → List α → List α
  | [], ys => ys
  | x :: xs, [] => x :: xs
  | x :: xs, y :: ys => x :: y :: interleave xs ys

/-- `let copy_count = (self.individuals.len() as f32 * 0.1) as usize`.
The source computes this through `f32`; since `0.1_f32 = 13421773 / 2^27`
exceeds `1/10` by less than `1.5e-9`, for every population length below
`2^24` the rounded product truncates to exactly `len / 10`, which is how
the elitism count is embedded here. -/
def copyCount (len : Nat) : Nat := len / 10

/-- `Population::new(size, generator, fitness)`.  The source maps
`(1..size).into_par_iter()` over independent `generator.generate()` calls;
the draws of the per-task random sources are embedded as the function
`gen` from the task's range value to the generated individual. -/
def Population.new {I : Type} (size : Nat) (gen : Nat → I) (fitness : I → Nat) :
    Population I :=
  ⟨sortPop ((List.range' 1 (size - 1)).map fun i =>
    { individual := gen i, fitness := fitness (gen i) })⟩

/-- One unit of the mutation band: `entry.individual.mutate()` becomes the
new individual, but the score computed is `fitness(&entry.individual)` —
the *parent*, exactly as in the source. -/
def mutateUnit {I : Type} (mutate : I → I) (fitness : I → Nat)
    (entry : GradedIndividual I) : GradedIndividual I :=
  { individual := mutate entry.individual, fitness := fitness entry.individual }

/-- One unit of the crossover band: combine the entry with the individual
at a uniformly drawn index of the whole current population
(`gen_range(0..len)` embedded as an arbitrary in-range index) and score
the offspring. -/
def crossUnit {I : Type} (cross : I → I → I) (fitness : I → Nat)
    (l : List (GradedIndividual I)) (idx : Nat) (entry : GradedIndividual I) :
    GradedIndividual I :=
  let ind := cross entry.individual (l.getD idx entry).individual
  { individual := ind, fitness := fitness ind }

/-- `Population::evolve`, instrumented with the list of arguments the
fitness function is invoked on.  `rnd k` is the value the thread-local
`gen_range(0..len)` draw returns in the `k`-th crossover unit (reduced
`mod len` to stay in the range the source guarantees).  The slice
`self.individuals[copy_count+1..]` panics (`none`) when
`copy_count + 1 > len`, i.e. exactly on the empty population. -/
def Population.evolveAux {I : Type} (p : Population I) (mutate : I → I)
    (cross : I → I → I) (fitness : I → Nat) (rnd : Nat → Nat) :
    Option (Population I × List I) :=
  let l := p.individuals
  let len := l.length
  let cc := copyCount len
  if cc + 1 ≤ len then
    let copyBand := l.take cc
    let mutSrc := stepEvery2 (l.drop cc)
    let mutBand := mutSrc.map (mutateUnit mutate fitness)
    let crossSrc := stepEvery2 (l.drop (cc + 1))
    let crossBand := crossSrc.enum.map fun ke =>
      crossUnit cross fitness l (rnd ke.1 % len) ke.2
    let calls := mutSrc.map (·.individual) ++ crossBand.map (·.individual)
    some (⟨sortPop (interleave (interleave copyBand mutBand) crossBand)⟩, calls)
  else
    none

/-- `Population::evolve`: the next generation (or `none` on panic). -/
def Population.evolve {I : Type} (p : Population I) (mutate : I → I)
    (cross : I → I → I) (fitness : I → Nat) (rnd : Nat → Nat) :
    Option (Population I) :=
  (p.evolveAux mutate cross fitness rnd).map (·.1)

/-- The sequence of individuals the fitness function is applied to during
one `evolve` call (mutation-band calls, then crossover-band calls; the
actual interleaving across rayon workers is unordered, the multiset is
what the claims speak about). -/
def Population.evolveCalls {I : Type} (p : Population I) (mutate : I → I)
    (cross : I → I → I) (fitness : I → Nat) (rnd : Nat → Nat) :
    Option (List I) :=
  (p.evolveAux mutate cross fitness rnd).map (·.2)

/-! ## Calculator VM (`src/bin/ga_calc.rs`) -/

/-- Reduce an integer into the `i32` range `[-2^31, 2^31)` (two's-complement
wrap-around, the release-mode semantics of the `Wrapping` arithmetic and of
the `ip` updates in the source). -/
def wrap32 (x : Int) : Int := (x + 2 ^ 31) % 2 ^ 32 - 2 ^ 31

/-- The 32-bit pattern of an `i32` value (for the bitwise instructions). -/
def toPat (x : Int) : Nat := (x % 2 ^ 32).toNat

/-- `as usize` on an `i32`: sign-extend to 64 bits and reinterpret. -/
def toUsize (x : Int) : Nat := (x % 2 ^ 64).toNat

/-- `i32` bitwise or. -/
def bitOr32 (a b : Int) : Int := wrap32 ((toPat a ||| toPat b : Nat) : Int)

/-- `i32` bitwise and. -/
def bitAnd32 (a b : Int) : Int := wrap32 ((toPat a &&& toPat b : Nat) : Int)

/-- `i32` bitwise xor. -/
def bitXor32 (a b : Int) : Int := wrap32 ((toPat a ^^^ toPat b : Nat) : Int)

/-- The value the `Div` instruction pushes: wrapping `i32` division
(Rust `/` truncates toward zero) for a non-zero divisor, and `i32::MAX`
for a zero divisor. -/
def divOp (dividend divisor : Int) : Int :=
  if divisor ≠ 0 then wrap32 (Int.tdiv dividend divisor) else 2147483647

/-- Interpreter statistics.  Both counters are `i32` in the source; they
are bounded by the step budget, far below `2^31`, so they are embedded
as `Nat`. -/
structure Stats where
  instructions_issued : Nat
  invalid_instructions : Nat
  deriving DecidableEq, Repr

/-- `Stats::new`. -/
def Stats.new : Stats := ⟨0, 0⟩

/-- How `SVM::execute` exits. -/
inductive ExitType where
  | Timeout
  | Abort
  deriving DecidableEq, Repr

/-- The stack machine.  `stackCap` is the capacity reserved by
`SVM::new(words, stack_size)`; `push_stack` drops values once the stack
holds that many. -/
structure SVM where
  memory : List Int
  stack : List Int
  stackCap : Nat
  stats : Stats
  deriving DecidableEq, Repr

/-- `SVM::new(words, stack_size)`: zeroed memory, empty stack with the
requested capacity reserved. -/
def SVM.new (words stack_size : Nat) : SVM :=
  { memory := List.replicate words 0, stack := [], stackCap := stack_size,
    stats := Stats.new }

/-- `SVM::peek_mem`: out-of-range reads yield `0`. -/
def SVM.peek_mem (vm : SVM) (address : Nat) : Int := vm.memory.getD address 0

/-- `SVM::poke_mem`: out-of-range writes are dropped. -/
def SVM.poke_mem (vm : SVM) (address : Nat) (value : Int) : SVM :=
  if address < vm.memory.length then { vm with memory := vm.memory.set address value }
  else vm

/-- `SVM::pop_stack`: popping an empty stack yields `0`.  The Lean list
holds the Rust `Vec` reversed: the head is the top of the stack. -/
def SVM.pop_stack (vm : SVM) : Int × SVM :=
  match vm.stack with
  | [] => (0, vm)
  | v :: rest => (v, { vm with stack := rest })

/-- `SVM::push_stack`: a push onto a full stack is silently dropped. -/
def SVM.push_stack (vm : SVM) (val : Int) : SVM :=
  if vm.stack.length < vm.stackCap then { vm with stack := val :: vm.stack } else vm

/-- The 18-instruction set. -/
inductive Instruction where
  | Nop
  | BitOr
  | BitAnd
  | BitXor
  | Add
  | Sub
  | Mult
  | Div
  | Push
  | Pop
  | PushDuplicate
  | PushMem
  | PopMem
  | JumpRel
  | JumpEq
  | JumpGt
  | JumpLt
  | Abort
  deriving DecidableEq, Repr

/-- An opcode with its literal operand. -/
structure OpCode where
  code : Instruction
  literal : Int
  deriving DecidableEq, Repr

/-- The `bound_ip` closure: a negative or past-the-end instruction pointer
is replaced by `0`. -/
def bound_ip (progLen : Nat) (old_ip : Int) : Int :=
  if old_ip < 0 then 0
  else if (progLen : Int) ≤ old_ip then 0
  else old_ip

/-- The mutable state of one `execute` call. -/
structure ExecState where
  vm : SVM
  ip : Int
  done : Bool
  exit_type : ExitType
  deriving DecidableEq, Repr

/-- One iteration of the `execute` loop: bound the instruction pointer,
fetch (`&program[ip as usize]` — `none` models the panic when the index is
still out of range, which happens exactly on the empty program), bump `ip`
and the issue counter, then dispatch on the opcode. -/
def execStep (program : List OpCode) (s : ExecState) : Option ExecState :=
  let ip0 := bound_ip program.length s.ip
  match program.get? ip0.toNat with
  | none => none
  | some cur_op =>
    let ip := wrap32 (ip0 + 1)
    let vm0 := { s.vm with stats :=
      { s.vm.stats with instructions_issued := s.vm.stats.instructions_issued + 1 } }
    match cur_op.code with
    | .Nop => some { s with vm := vm0, ip := ip }
    | .BitOr =>
      let r1 := vm0.pop_stack
      let r2 := r1.2.pop_stack
      some { s with vm := r2.2.push_stack (bitOr32 r1.1 r2.1), ip := ip }
    | .BitAnd =>
      let r1 := vm0.pop_stack
      let r2 := r1.2.pop_stack
      some { s with vm := r2.2.push_stack (bitAnd32 r1.1 r2.1), ip := ip }
    | .BitXor =>
      let r1 := vm0.pop_stack
      let r2 := r1.2.pop_stack
      some { s with vm := r2.2.push_stack (bitXor32 r1.1 r2.1), ip := ip }
    | .Add =>
      let r1 := vm0.pop_stack
      let r2 := r1.2.pop_stack
      some { s with vm := r2.2.push_stack (wrap32 (r1.1 + r2.1)), ip := ip }
    | .Sub =>
      let r1 := vm0.pop_stack
      let r2 := r1.2.pop_stack
      some { s with vm := r2.2.push_stack (wrap32 (r1.1 - r2.1)), ip := ip }
    | .Mult =>
      let r1 := vm0.pop_stack
      let r2 := r1.2.pop_stack
      some { s with vm := r2.2.push_stack (wrap32 (r1.1 * r2.1)), ip := ip }
    | .Div =>
      let r1 := vm0.pop_stack
      let r2 := r1.2.pop_stack
      some { s with vm := r2.2.push_stack (divOp r1.1 r2.1), ip := ip }
    | .Push => some { s with vm := vm0.push_stack cur_op.literal, ip := ip }
    | .Pop => some { s with vm := (vm0.pop_stack).2, ip := ip }
    | .PushDuplicate =>
      let r1 := vm0.pop_stack
      some { s with vm := (r1.2.push_stack r1.1).push_stack r1.1, ip := ip }
    | .PushMem =>
      some { s with vm := vm0.push_stack (vm0.peek_mem (toUsize cur_op.literal)), ip := ip }
    | .PopMem =>
      let r1 := vm0.pop_stack
      some { s with vm := r1.2.poke_mem (toUsize cur_op.literal) r1.1, ip := ip }
    | .JumpRel => some { s with vm := vm0, ip := wrap32 (ip + cur_op.literal) }
    | .JumpEq =>
      let r1 := vm0.pop_stack
      some { s with vm := r1.2, ip := if r1.1 = 0 then wrap32 (ip + cur_op.literal) else ip }
    | .JumpGt =>
      let r1 := vm0.pop_stack
      some { s with vm := r1.2, ip := if 0 < r1.1 then wrap32 (ip + cur_op.literal) else ip }
    | .JumpLt =>
      let r1 := vm0.pop_stack
      some { s with vm := r1.2, ip := if r1.1 < 0 then wrap32 (ip + cur_op.literal) else ip }
    | .Abort => some { s with vm := vm0, ip := ip, done := true, exit_type := .Abort }

/-- The `while !done && remaining_steps > 0` loop, with the remaining step
budget as fuel. -/
def execLoop (program : List OpCode) : Nat → ExecState → Option ExecState
  | 0, s => some s
  | n + 1, s =>
    if s.done then some s
    else
      match execStep program s with
      | none => none
      | some s2 => execLoop program n s2

/-- `SVM::execute`: run up to `max_steps` instructions from address `0`.
The source's budget is an `i32`; a non-positive budget never enters the
loop, which is fuel `0` here. -/
def SVM.execute (vm : SVM) (program : List OpCode) (max_steps : Nat) :
    Option ExecState :=
  execLoop program max_steps
    { vm := vm, ip := 0, done := false, exit_type := ExitType.Timeout }

/-! ## String domain (`src/bin/ga_strings.rs`) -/

/-- The closure built by `string_fitness`: over the ten positions it
accumulates `score += 1.0 - |data[i] - genes[i]|` in `f32`.  Every summand
and partial sum is an integer of magnitude below `2^12`, a range where
`f32` arithmetic is exact, so the score is embedded as the exact integer.
`data` and `genes` map position to byte value. -/
def string_fitness (data genes : Nat → Nat) : Int :=
  (List.range 10).foldl
    (fun score i => score + (1 - |(data i : Int) - (genes i : Int)|)) 0

/-- The spec's round-trip program `[Push 2, Push 3, Add, Abort]`. -/
def pushAddAbortProgram : List OpCode :=
  [{ code := Instruction.Push, literal := 2 },
   { code := Instruction.Push, literal := 3 },
   { code := Instruction.Add, literal := 0 },
   { code := Instruction.Abort, literal := 0 }]

/-! ## Helper lemmas: the comparison sort -/

theorem insertSorted_length {α : Type} (le : α → α → Bool) (x : α) :
    ∀ l : List α, (insertSorted le x l).length = l.length + 1
  | [] => rfl
  | y :: ys => by
    simp only [insertSorted]
    split
    · simp
    · simp [insertSorted_length le x ys]

theorem length_sortBy {α : Type} (le : α → α → Bool) :
    ∀ l : List α, (sortBy le l).length = l.length
  | [] => rfl
  | x :: xs => by
    simp [sortBy, insertSorted_length, length_sortBy le xs]

theorem mem_insertSorted {α : Type} (le : α → α → Bool) (x a : α) :
    ∀ l : List α, a ∈ insertSorted le x l ↔ a = x ∨ a ∈ l
  | [] => by simp [insertSorted]
  | y :: ys => by
    simp only [insertSorted]
    split
    · simp only [List.mem_cons]
    · simp only [List.mem_cons, mem_insertSorted le x a ys]
      tauto

theorem mem_sortBy {α : Type} (le : α → α → Bool) (a : α) :
    ∀ l : List α, a ∈ sortBy le l ↔ a ∈ l
  | [] => Iff.rfl
  | x :: xs => by
    simp only [sortBy, mem_insertSorted, mem_sortBy le a xs, List.mem_cons]

theorem pairwise_insertSorted {α : Type} (le : α → α → Bool)
    (total : ∀ a b, le a b = true ∨ le b a = true)
    (trans : ∀ a b c, le a b = true → le b c = true → le a c = true)
    (x : α) : ∀ l : List α, l.Pairwise (fun a b => le a b = true) →
      (insertSorted le x l).Pairwise (fun a b => le a b = true)
  | [], _ => by simp [insertSorted]
  | y :: ys, h => by
    rcases List.pairwise_cons.mp h with ⟨hy, hys⟩
    simp only [insertSorted]
    by_cases hxy : le x y = true
    · rw [if_pos hxy]
      refine List.pairwise_cons.mpr ⟨?_, h⟩
      intro z hz
      rcases List.mem_cons.mp hz with rfl | hz
      · exact hxy
      · exact trans x y z hxy (hy z hz)
    · rw [if_neg hxy]
      refine List.pairwise_cons.mpr ⟨?_, pairwise_insertSorted le total trans x ys hys⟩
      intro z hz
      rcases (mem_insertSorted le x z ys).mp hz with heq | hz
      · rcases total x y with h1 | h1
        · exact absurd h1 hxy
        · rw [heq]
          exact h1
      · exact hy z hz

theorem pairwise_sortBy {α : Type} (le : α → α → Bool)
    (total : ∀ a b, le a b = true ∨ le b a = true)
    (trans : ∀ a b c, le a b = true → le b c = true → le a c = true) :
    ∀ l : List α, (sortBy le l).Pairwise (fun a b => le a b = true)
  | [] => by simp [sortBy]
  | x :: xs =>
    pairwise_insertSorted le total trans x _ (pairwise_sortBy le total trans xs)

/-! ## Helper lemmas: `step_by(2)` and `interleave` -/

theorem stepEvery2_length {α : Type} :
    ∀ l : List α, (stepEvery2 l).length = (l.length + 1) / 2
  | [] => by simp [stepEvery2]
  | [_] => by simp [stepEvery2]
  | _ :: _ :: rest => by
    simp only [stepEvery2, List.length_cons, stepEvery2_length rest]
    omega

theorem mem_stepEvery2 {α : Type} (a : α) :
    ∀ l : List α, a ∈ stepEvery2 l → a ∈ l
  | [], h => h
  | [_], h => h
  | x :: y :: rest, h => by
    rcases List.mem_cons.mp h with rfl | h
    · exact List.mem_cons_self _ _
    · exact List.mem_cons.mpr (Or.inr (List.mem_cons.mpr
        (Or.inr (mem_stepEvery2 a rest h))))

theorem interleave_length {α : Type} :
    ∀ xs ys : List α, (interleave xs ys).length = xs.length + ys.length
  | [], ys => by simp [interleave]
  | _ :: _, [] => by simp [interleave]
  | _ :: xs, _ :: ys => by
    simp only [interleave, List.length_cons, interleave_length xs ys]
    omega

theorem mem_interleave {α : Type} (a : α) :
    ∀ xs ys : List α, a ∈ interleave xs ys ↔ a ∈ xs ∨ a ∈ ys
  | [], ys => by simp [interleave]
  | x :: xs, [] => by simp [interleave]
  | x :: xs, y :: ys => by
    simp only [interleave, List.mem_cons, mem_interleave a xs ys]
    tauto

/-! ## Helper lemmas: the total-order comparator -/

theorem total_cmpKey_inj (a b : Nat) (ha : a < 2 ^ 32) (hb : b < 2 ^ 32)
    (h : total_cmpKey a = total_cmpKey b) : a = b := by
  unfold total_cmpKey at h
  rw [Nat.mod_eq_of_lt ha, Nat.mod_eq_of_lt hb] at h
  have hxa : (a ^^^ 0x7FFFFFFF) < 2 ^ 32 := Nat.xor_lt_two_pow ha (by norm_num)
  have hxb : (b ^^^ 0x7FFFFFFF) < 2 ^ 32 := Nat.xor_lt_two_pow hb (by norm_num)
  by_cases h1 : a < 2 ^ 31 <;> by_cases h2 : b < 2 ^ 31
  · rw [if_pos h1, if_pos h2] at h
    exact_mod_cast h
  · rw [if_pos h1, if_neg h2] at h
    omega
  · rw [if_neg h1, if_pos h2] at h
    omega
  · rw [if_neg h1, if_neg h2] at h
    have hx : (a ^^^ 0x7FFFFFFF) = (b ^^^ 0x7FFFFFFF) := by omega
    have hc := congrArg (· ^^^ 0x7FFFFFFF) hx
    simpa [Nat.xor_assoc] using hc

theorem popLe_iff {I : Type} (a b : GradedIndividual I) :
    popLe a b = true ↔ total_cmpKey b.fitness ≤ total_cmpKey a.fitness := by
  simp only [popLe, total_cmp, decide_eq_true_eq]
  constructor
  · intro h
    by_contra hlt
    push_neg at hlt
    exact h (compare_gt_iff_gt.mpr hlt)
  · intro h hgt
    exact absurd (compare_gt_iff_gt.mp hgt) (not_lt.mpr h)

theorem popLe_total {I : Type} (a b : GradedIndividual I) :
    popLe a b = true ∨ popLe b a = true := by
  rw [popLe_iff, popLe_iff]
  exact le_total _ _

theorem popLe_trans {I : Type} (a b c : GradedIndividual I) :
    popLe a b = true → popLe b c = true → popLe a c = true := by
  rw [popLe_iff, popLe_iff, popLe_iff]
  intro h1 h2
  exact le_trans h2 h1

theorem length_sortPop {I : Type} (l : List (GradedIndividual I)) :
    (sortPop l).length = l.length :=
  length_sortBy popLe l

theorem mem_sortPop {I : Type} (a : GradedIndividual I) (l : List (GradedIndividual I)) :
    a ∈ sortPop l ↔ a ∈ l :=
  mem_sortBy popLe a l

theorem sortPop_sorted {I : Type} (l : List (GradedIndividual I)) :
    List.Chain' (fun x y => total_cmp x.fitness y.fitness ≠ Ordering.lt) (sortPop l) := by
  have hp := pairwise_sortBy popLe popLe_total popLe_trans l
  have hp2 : (sortPop l).Pairwise
      (fun x y => total_cmp x.fitness y.fitness ≠ Ordering.lt) := by
    refine hp.imp ?_
    intro a b hab
    rw [popLe_iff] at hab
    intro hlt
    rw [total_cmp, compare_lt_iff_lt] at hlt
    exact absurd hlt (not_lt.mpr hab)
  exact hp2.chain'

/-! ## Helper lemmas: `evolve` -/

theorem copyCount_succ_le (len : Nat) (h : 1 ≤ len) : copyCount len + 1 ≤ len := by
  unfold copyCount
  omega

theorem evolveAux_eq {I : Type} (p : Population I) (mutate : I → I)
    (cross : I → I → I) (fitness : I → Nat) (rnd : Nat → Nat)
    (h : copyCount p.individuals.length + 1 ≤ p.individuals.length) :
    p.evolveAux mutate cross fitness rnd =
      some (⟨sortPop (interleave
          (interleave (p.individuals.take (copyCount p.individuals.length))
            ((stepEvery2 (p.individuals.drop (copyCount p.individuals.length))).map
              (mutateUnit mutate fitness)))
          ((stepEvery2 (p.individuals.drop (copyCount p.individuals.length + 1))).enum.map
            fun ke => crossUnit cross fitness p.individuals
              (rnd ke.1 % p.individuals.length) ke.2))⟩,
        (stepEvery2 (p.individuals.drop (copyCount p.individuals.length))).map (·.individual)
          ++ ((stepEvery2 (p.individuals.drop (copyCount p.individuals.length + 1))).enum.map
            fun ke => crossUnit cross fitness p.individuals
              (rnd ke.1 % p.individuals.length) ke.2).map (·.individual)) := by
  simp only [Population.evolveAux]
  rw [if_pos h]

theorem total_cmp_ne_gt_iff (a b : Nat) :
    total_cmp a b ≠ Ordering.gt ↔ total_cmpKey a ≤ total_cmpKey b := by
  rw [total_cmp]
  constructor
  · intro h
    by_contra hlt
    push_neg at hlt
    exact h (compare_gt_iff_gt.mpr hlt)
  · intro h hgt
    exact absurd (compare_gt_iff_gt.mp hgt) (not_lt.mpr h)

/-! ## Claims about the engine -/

/-- C1 (code bug): in the mutation band the source computes
`let ind = entry.individual.mutate(); let score = fitness(&entry.individual);`
— it scores the *parent*, not the mutated replacement.  On the population
`[{individual 0, fitness 0}]` with `mutate = (+1)` and `fitness = id`, the
evolved population is `[{individual 1, fitness 0}]`: the stored fitness `0`
is the parent's score, while the fitness of the stored individual `1` is
`1 ≠ 0`, contradicting the claim that the replacement is re-scored. -/
theorem mutation_band_scores_parent :
    (⟨[⟨0, 0⟩]⟩ : Population Nat).evolve (fun n => n + 1) (fun a _ => a)
      (fun n => n) (fun _ => 0) = some ⟨[⟨1, 0⟩]⟩ ∧
    (fun n : Nat => n) ((fun n : Nat => n + 1) 0) ≠ (0 : Nat) := by
  constructor
  · decide
  · decide

/-- C2: for every population with at least one individual, `evolve` returns
a population of exactly the same length: the elitism, mutation and crossover
bands together contribute `copy_count + ⌈(len-cc)/2⌉ + ⌊(len-cc)/2⌋ = len`
elements, and the final sort is a permutation. -/
theorem evolve_conserves_population_size {I : Type} (p : Population I)
    (mutate : I → I) (cross : I → I → I) (fitness : I → Nat) (rnd : Nat → Nat)
    (h : 1 ≤ p.individuals.length) :
    ∃ q, p.evolve mutate cross fitness rnd = some q ∧
      q.individuals.length = p.individuals.length := by
  have hcc := copyCount_succ_le p.individuals.length h
  rw [Population.evolve, evolveAux_eq p mutate cross fitness rnd hcc]
  refine ⟨_, rfl, ?_⟩
  simp only [length_sortPop, interleave_length, List.length_take, List.length_map,
    stepEvery2_length, List.length_drop, List.enum_length]
  simp only [copyCount] at hcc ⊢
  omega

/-- Witness for C2 at a concrete three-element population. -/
theorem evolve_conserves_population_size_witness :
    ∃ q, (⟨[⟨0, 5⟩, ⟨1, 3⟩, ⟨2, 9⟩]⟩ : Population Nat).evolve
      (fun n => n + 10) (fun a b => a * 100 + b) (fun n => n) (fun _ => 1) = some q ∧
      q.individuals.length = 3 :=
  evolve_conserves_population_size _ _ _ _ _ (by decide)

/-- C3: `Population::new` iterates over `1..size`, so it builds exactly
`size - 1` graded individuals (none for `size = 0`), each pairing a
generated individual with the fitness function applied to it. -/
theorem new_generates_size_minus_one {I : Type} (size : Nat) (gen : Nat → I)
    (fitness : I → Nat) :
    (Population.new size gen fitness).individuals.length = size - 1 ∧
    ∀ e ∈ (Population.new size gen fitness).individuals,
      ∃ i, 1 ≤ i ∧ i < size ∧
        e = { individual := gen i, fitness := fitness (gen i) } := by
  constructor
  · simp [Population.new, length_sortPop]
  · intro e he
    simp only [Population.new] at he
    rw [mem_sortPop] at he
    rcases List.mem_map.mp he with ⟨i, hi, rfl⟩
    rw [List.mem_range'_1] at hi
    exact ⟨i, hi.1, by omega, rfl⟩

/-- Witness for C3: `new 3` yields two individuals, and its top entry comes
from some range value `1 ≤ i < 3`. -/
theorem new_generates_size_minus_one_witness :
    (Population.new 3 (fun i => i) (fun n => n)).individuals.length = 3 - 1 ∧
    ∃ i, 1 ≤ i ∧ i < 3 ∧
      ({ individual := 2, fitness := 2 } : GradedIndividual Nat)
        = { individual := i, fitness := i } :=
  ⟨(new_generates_size_minus_one 3 (fun i => i) (fun n => n)).1,
   (new_generates_size_minus_one 3 (fun i => i) (fun n => n)).2 ⟨2, 2⟩ (by decide)⟩

/-- C4: after `new` and after every successful `evolve`, adjacent entries
are in descending fitness order under the `total_cmp` comparator, and that
comparator is a total order on all 32-bit patterns (NaN and infinity
patterns included) — reflexive-equal, antisymmetric, transitive and total;
being a total Lean function of the two patterns, it traps on nothing. -/
theorem population_sorted_and_comparator_total_order :
    (∀ (I : Type) (size : Nat) (gen : Nat → I) (fitness : I → Nat),
      List.Chain' (fun x y => total_cmp x.fitness y.fitness ≠ Ordering.lt)
        (Population.new size gen fitness).individuals) ∧
    (∀ (I : Type) (p : Population I) (mutate : I → I) (cross : I → I → I)
        (fitness : I → Nat) (rnd : Nat → Nat) (q : Population I),
      p.evolve mutate cross fitness rnd = some q →
      List.Chain' (fun x y => total_cmp x.fitness y.fitness ≠ Ordering.lt)
        q.individuals) ∧
    (∀ a : Nat, total_cmp a a = Ordering.eq) ∧
    (∀ a b : Nat, a < 2 ^ 32 → b < 2 ^ 32 → total_cmp a b = Ordering.eq → a = b) ∧
    (∀ a b c : Nat, total_cmp a b ≠ Ordering.gt → total_cmp b c ≠ Ordering.gt →
      total_cmp a c ≠ Ordering.gt) ∧
    (∀ a b : Nat, total_cmp a b ≠ Ordering.gt ∨ total_cmp b a ≠ Ordering.gt) := by
  refine ⟨?_, ?_, ?_, ?_, ?_, ?_⟩
  · intro I size gen fitness
    simp only [Population.new]
    exact sortPop_sorted _
  · intro I p mutate cross fitness rnd q hq
    by_cases hcc : copyCount p.individuals.length + 1 ≤ p.individuals.length
    · rw [Population.evolve, evolveAux_eq p mutate cross fitness rnd hcc] at hq
      simp only [Option.map_some', Option.some.injEq] at hq
      rw [← hq]
      exact sortPop_sorted _
    · simp only [Population.evolve, Population.evolveAux] at hq
      rw [if_neg hcc] at hq
      simp at hq
  · intro a
    exact compare_eq_iff_eq.mpr rfl
  · intro a b ha hb h
    exact total_cmpKey_inj a b ha hb (compare_eq_iff_eq.mp h)
  · intro a b c h1 h2
    rw [total_cmp_ne_gt_iff] at h1 h2 ⊢
    exact le_trans h1 h2
  · intro a b
    rw [total_cmp_ne_gt_iff, total_cmp_ne_gt_iff]
    exact le_total _ _

/-- Witness for C4: the sorted-output part at a concrete evolved population
and the antisymmetry part at concrete patterns. -/
theorem population_sorted_and_comparator_total_order_witness :
    List.Chain' (fun x y => total_cmp x.fitness y.fitness ≠ Ordering.lt)
      (⟨[⟨101, 101⟩, ⟨12, 2⟩, ⟨10, 0⟩]⟩ : Population Nat).individuals ∧
    (5 : Nat) = 5 :=
  ⟨population_sorted_and_comparator_total_order.2.1 Nat ⟨[⟨0, 5⟩, ⟨1, 3⟩, ⟨2, 9⟩]⟩
      (fun n => n + 10) (fun a b => a * 100 + b) (fun n => n) (fun _ => 1)
      ⟨[⟨101, 101⟩, ⟨12, 2⟩, ⟨10, 0⟩]⟩ (by decide),
   population_sorted_and_comparator_total_order.2.2.2.1 5 5 (by decide) (by decide)
      (by decide)⟩

/-- C5: the top `copy_count` entries of the current ranking are carried
into the evolved population verbatim (same individual, same stored
fitness), and every argument the fitness function sees during `evolve`
is either the individual of some non-elite entry (index `≥ copy_count`,
the mutation band scoring its parent) or a freshly built crossover
offspring — never an elite slot. -/
theorem elitism_band_preserved {I : Type} (p : Population I) (mutate : I → I)
    (cross : I → I → I) (fitness : I → Nat) (rnd : Nat → Nat)
    (q : Population I) (calls : List I)
    (hq : p.evolve mutate cross fitness rnd = some q)
    (hc : p.evolveCalls mutate cross fitness rnd = some calls) :
    (∀ e ∈ p.individuals.take (copyCount p.individuals.length), e ∈ q.individuals) ∧
    (∀ c ∈ calls,
      (∃ e ∈ p.individuals.drop (copyCount p.individuals.length), c = e.individual) ∨
      ∃ a b, c = cross a b) := by
  by_cases hcc : copyCount p.individuals.length + 1 ≤ p.individuals.length
  · rw [Population.evolve, evolveAux_eq p mutate cross fitness rnd hcc] at hq
    rw [Population.evolveCalls, evolveAux_eq p mutate cross fitness rnd hcc] at hc
    simp only [Option.map_some', Option.some.injEq] at hq hc
    constructor
    · intro e he
      rw [← hq]
      simp only [mem_sortPop, mem_interleave]
      exact Or.inl (Or.inl he)
    · intro c hcall
      rw [← hc] at hcall
      rcases List.mem_append.mp hcall with hm | hx
      · rcases List.mem_map.mp hm with ⟨e, he, rfl⟩
        exact Or.inl ⟨e, mem_stepEvery2 e _ he, rfl⟩
      · rcases List.mem_map.mp hx with ⟨u, hu, rfl⟩
        rcases List.mem_map.mp hu with ⟨ke, hke, rfl⟩
        exact Or.inr ⟨ke.2.individual,
          (p.individuals.getD (rnd ke.1 % p.individuals.length) ke.2).individual, rfl⟩
  · simp only [Population.evolve, Population.evolveAux] at hq
    rw [if_neg hcc] at hq
    simp at hq

/-- Witness for C5 at a concrete ten-element population (elitism count 1). -/
theorem elitism_band_preserved_witness :
    (∀ e ∈ ([⟨0, 10⟩, ⟨1, 9⟩, ⟨2, 8⟩, ⟨3, 7⟩, ⟨4, 6⟩, ⟨5, 5⟩, ⟨6, 4⟩, ⟨7, 3⟩,
        ⟨8, 2⟩, ⟨9, 1⟩] : List (GradedIndividual Nat)).take (copyCount
          ([⟨0, 10⟩, ⟨1, 9⟩, ⟨2, 8⟩, ⟨3, 7⟩, ⟨4, 6⟩, ⟨5, 5⟩, ⟨6, 4⟩, ⟨7, 3⟩,
            ⟨8, 2⟩, ⟨9, 1⟩] : List (GradedIndividual Nat)).length),
      e ∈ ([⟨0, 10⟩, ⟨9, 9⟩, ⟨8, 8⟩, ⟨7, 7⟩, ⟨6, 6⟩, ⟨5, 5⟩, ⟨4, 4⟩, ⟨3, 3⟩,
        ⟨2, 2⟩, ⟨1, 1⟩] : List (GradedIndividual Nat))) ∧
    (∀ c ∈ ([1, 3, 5, 7, 9, 2, 4, 6, 8] : List Nat),
      (∃ e ∈ ([⟨0, 10⟩, ⟨1, 9⟩, ⟨2, 8⟩, ⟨3, 7⟩, ⟨4, 6⟩, ⟨5, 5⟩, ⟨6, 4⟩, ⟨7, 3⟩,
          ⟨8, 2⟩, ⟨9, 1⟩] : List (GradedIndividual Nat)).drop (copyCount
            ([⟨0, 10⟩, ⟨1, 9⟩, ⟨2, 8⟩, ⟨3, 7⟩, ⟨4, 6⟩, ⟨5, 5⟩, ⟨6, 4⟩, ⟨7, 3⟩,
              ⟨8, 2⟩, ⟨9, 1⟩] : List (GradedIndividual Nat)).length),
        c = e.individual) ∨
      ∃ a b, c = (fun a _ => a : Nat → Nat → Nat) a b) :=
  elitism_band_preserved
    ⟨[⟨0, 10⟩, ⟨1, 9⟩, ⟨2, 8⟩, ⟨3, 7⟩, ⟨4, 6⟩, ⟨5, 5⟩, ⟨6, 4⟩, ⟨7, 3⟩, ⟨8, 2⟩, ⟨9, 1⟩]⟩
    (fun n => n) (fun a _ => a) (fun n => n) (fun _ => 0)
    ⟨[⟨0, 10⟩, ⟨9, 9⟩, ⟨8, 8⟩, ⟨7, 7⟩, ⟨6, 6⟩, ⟨5, 5⟩, ⟨4, 4⟩, ⟨3, 3⟩, ⟨2, 2⟩, ⟨1, 1⟩]⟩
    [1, 3, 5, 7, 9, 2, 4, 6, 8] (by decide) (by decide)

/-- C6: during every `evolve` on a population of length `len ≥ 1`, the
fitness function is invoked exactly `len - copy_count` times — one call in
each mutation-band unit and one in each crossover-band unit, none for the
elitism band. -/
theorem evolve_fitness_invocation_count {I : Type} (p : Population I)
    (mutate : I → I) (cross : I → I → I) (fitness : I → Nat) (rnd : Nat → Nat)
    (h : 1 ≤ p.individuals.length) :
    ∃ calls, p.evolveCalls mutate cross fitness rnd = some calls ∧
      calls.length = p.individuals.length - copyCount p.individuals.length := by
  have hcc := copyCount_succ_le p.individuals.length h
  rw [Population.evolveCalls, evolveAux_eq p mutate cross fitness rnd hcc]
  refine ⟨_, rfl, ?_⟩
  simp only [List.length_append, List.length_map, stepEvery2_length,
    List.length_drop, List.enum_length]
  simp only [copyCount] at hcc ⊢
  omega

/-- Witness for C6: the three-element population triggers `3 - 0 = 3`
fitness invocations. -/
theorem evolve_fitness_invocation_count_witness :
    ∃ calls, (⟨[⟨0, 5⟩, ⟨1, 3⟩, ⟨2, 9⟩]⟩ : Population Nat).evolveCalls
      (fun n => n + 10) (fun a b => a * 100 + b) (fun n => n) (fun _ => 1)
        = some calls ∧ calls.length = 3 - copyCount 3 :=
  evolve_fitness_invocation_count _ _ _ _ _ (by decide)

/-- C10: `evolve` is total on every population with at least one
individual (both slice bounds are then in range, since
`copy_count < len`), while on the empty population the slice
`self.individuals[copy_count+1..]` starts past the end and panics. -/
theorem evolve_panics_iff_empty :
    (∀ (I : Type) (p : Population I) (mutate : I → I) (cross : I → I → I)
        (fitness : I → Nat) (rnd : Nat → Nat), 1 ≤ p.individuals.length →
      ∃ q, p.evolve mutate cross fitness rnd = some q) ∧
    (∀ (I : Type) (mutate : I → I) (cross : I → I → I) (fitness : I → Nat)
        (rnd : Nat → Nat),
      (⟨[]⟩ : Population I).evolve mutate cross fitness rnd = none) := by
  constructor
  · intro I p mutate cross fitness rnd h
    have hcc := copyCount_succ_le p.individuals.length h
    rw [Population.evolve, evolveAux_eq p mutate cross fitness rnd hcc]
    exact ⟨_, rfl⟩
  · intro I mutate cross fitness rnd
    rfl

/-- Witness for C10: a singleton population evolves successfully, the empty
one panics. -/
theorem evolve_panics_iff_empty_witness :
    (∃ q, (⟨[⟨0, 0⟩]⟩ : Population Nat).evolve (fun n => n) (fun a _ => a)
      (fun n => n) (fun _ => 0) = some q) ∧
    (⟨[]⟩ : Population Nat).evolve (fun n => n) (fun a _ => a)
      (fun n => n) (fun _ => 0) = none :=
  ⟨evolve_panics_iff_empty.1 Nat _ _ _ _ _ (by decide),
   evolve_panics_iff_empty.2 Nat _ _ _ _⟩

/-! ## Helper lemmas: the interpreter loop -/

theorem execLoop_done (prog : List OpCode) (n : Nat) (s : ExecState)
    (h : s.done = true) : execLoop prog n s = some s := by
  cases n with
  | zero => rfl
  | succ m => simp [execLoop, h]

theorem execLoop_add_of_done (prog : List OpCode) :
    ∀ (m n : Nat) (s t : ExecState), execLoop prog m s = some t →
      t.done = true → execLoop prog (m + n) s = some t
  | 0, n, s, t, h, ht => by
    simp only [execLoop, Option.some.injEq] at h
    subst h
    rw [Nat.zero_add]
    exact execLoop_done prog n s ht
  | m + 1, n, s, t, h, ht => by
    simp only [execLoop] at h
    by_cases hd : s.done = true
    · rw [if_pos hd] at h
      injection h with h
      subst h
      exact execLoop_done prog _ s ht
    · rw [if_neg hd] at h
      rcases hstep : execStep prog s with _ | s2
      · rw [hstep] at h
        cases h
      · rw [hstep] at h
        have ih := execLoop_add_of_done prog m n s2 t h ht
        have harith : m + 1 + n = (m + n) + 1 := by omega
        rw [harith]
        simp only [execLoop]
        rw [if_neg hd, hstep]
        exact ih

theorem bound_ip_bounds (progLen : Nat) (ip : Int) (h : 0 < progLen) :
    0 ≤ bound_ip progLen ip ∧ bound_ip progLen ip < (progLen : Int) := by
  unfold bound_ip
  split
  · omega
  · split
    · omega
    · omega

theorem execStep_total (prog : List OpCode) (s : ExecState) (h : prog ≠ []) :
    ∃ s2, execStep prog s = some s2 := by
  have hlen : 0 < prog.length := List.length_pos.mpr h
  have hb := bound_ip_bounds prog.length s.ip hlen
  have hn : (bound_ip prog.length s.ip).toNat < prog.length := by omega
  rcases hget : prog.get? (bound_ip prog.length s.ip).toNat with _ | op
  · rw [List.get?_eq_none] at hget
    omega
  · simp only [execStep, hget]
    cases op.code <;> exact ⟨_, rfl⟩

theorem execLoop_total (prog : List OpCode) (h : prog ≠ []) :
    ∀ (n : Nat) (s : ExecState), ∃ t, execLoop prog n s = some t
  | 0, s => ⟨s, rfl⟩
  | n + 1, s => by
    by_cases hd : s.done = true
    · exact ⟨s, execLoop_done prog _ s hd⟩
    · rcases execStep_total prog s h with ⟨s2, hs2⟩
      rcases execLoop_total prog h n s2 with ⟨t, ht⟩
      refine ⟨t, ?_⟩
      simp only [execLoop]
      rw [if_neg hd, hs2]
      exact ht

/-! ## Claims about the interpreter and the string domain -/

/-- C7: running `[Push 2, Push 3, Add, Abort]` with any step budget `≥ 4`
exits via `Abort` with `5` on top of the stack; running any program with
step budget `0` exits via `Timeout` having issued no instruction. -/
theorem svm_round_trip :
    (∀ budget : Nat, 4 ≤ budget →
      ∃ s, (SVM.new 100 100).execute pushAddAbortProgram budget = some s ∧
        s.exit_type = ExitType.Abort ∧ s.vm.stack.head? = some 5) ∧
    (∀ (program : List OpCode) (words cap : Nat),
      ∃ s, (SVM.new words cap).execute program 0 = some s ∧
        s.exit_type = ExitType.Timeout ∧ s.vm.stats.instructions_issued = 0) := by
  constructor
  · intro budget hb
    obtain ⟨k, rfl⟩ := Nat.exists_eq_add_of_le hb
    refine ⟨{ vm := { memory := List.replicate 100 0, stack := [5], stackCap := 100,
                      stats := { instructions_issued := 4, invalid_instructions := 0 } },
                ip := 4, done := true, exit_type := ExitType.Abort }, ?_, rfl, rfl⟩
    rw [SVM.execute]
    exact execLoop_add_of_done pushAddAbortProgram 4 k _ _ (by decide) rfl
  · intro program words cap
    exact ⟨_, rfl, rfl, rfl⟩

/-- Witness for C7 at the budgets 4 and 0. -/
theorem svm_round_trip_witness :
    (∃ s, (SVM.new 100 100).execute pushAddAbortProgram 4 = some s ∧
      s.exit_type = ExitType.Abort ∧ s.vm.stack.head? = some 5) ∧
    (∃ s, (SVM.new 7 5).execute [] 0 = some s ∧
      s.exit_type = ExitType.Timeout ∧ s.vm.stats.instructions_issued = 0) :=
  ⟨svm_round_trip.1 4 (by decide), svm_round_trip.2 [] 7 5⟩

/-- C8 counterexample: the claim quantifies over *every* program, but on
the empty program the bounded instruction pointer `0` is itself out of
range, so the fetch `&program[0]` panics: with one step of budget,
`execute` faults (`none`). -/
theorem execute_empty_program_faults :
    (SVM.new 100 100).execute [] 1 = none := by decide

/-- C8 (amended to nonempty programs): for every nonempty program and
every step budget `execute` cannot fault — an out-of-range instruction
pointer is clamped to `0` before fetching, popping an empty stack yields
`0`, pushing onto a full stack leaves it unchanged, and a zero divisor
makes `Div` push `i32::MAX` instead of trapping. -/
theorem execute_never_faults_on_nonempty :
    (∀ (program : List OpCode) (vm : SVM) (budget : Nat), program ≠ [] →
      ∃ s, vm.execute program budget = some s) ∧
    (∀ (progLen : Nat) (ip : Int), ip < 0 ∨ (progLen : Int) ≤ ip →
      bound_ip progLen ip = 0) ∧
    (∀ vm : SVM, vm.stack = [] → vm.pop_stack = (0, vm)) ∧
    (∀ (vm : SVM) (val : Int), vm.stackCap ≤ vm.stack.length →
      vm.push_stack val = vm) ∧
    (∀ dividend : Int, divOp dividend 0 = 2147483647) := by
  refine ⟨?_, ?_, ?_, ?_, ?_⟩
  · intro program vm budget h
    exact execLoop_total program h budget _
  · intro progLen ip h
    unfold bound_ip
    split
    · rfl
    · split
      · rfl
      · omega
  · intro vm h
    simp [SVM.pop_stack, h]
  · intro vm val h
    rw [SVM.push_stack, if_neg (by omega)]
  · intro dividend
    simp [divOp]

/-- Witness for C8 (amended): a one-instruction program with an
out-of-range start, an empty-stack pop, a full-stack push, and a division
by zero, all at concrete values. -/
theorem execute_never_faults_on_nonempty_witness :
    (∃ s, (SVM.new 3 3).execute [{ code := Instruction.Nop, literal := 0 }] 2
      = some s) ∧
    bound_ip 1 5 = 0 ∧
    (SVM.new 3 0).pop_stack = (0, SVM.new 3 0) ∧
    (SVM.new 3 0).push_stack 7 = SVM.new 3 0 ∧
    divOp 12 0 = 2147483647 :=
  ⟨execute_never_faults_on_nonempty.1 [{ code := Instruction.Nop, literal := 0 }]
      (SVM.new 3 3) 2 (by decide),
   execute_never_faults_on_nonempty.2.1 1 5 (Or.inr (by decide)),
   execute_never_faults_on_nonempty.2.2.1 (SVM.new 3 0) rfl,
   execute_never_faults_on_nonempty.2.2.2.1 (SVM.new 3 0) 7 (by decide),
   execute_never_faults_on_nonempty.2.2.2.2 12⟩

/-- C9: over a ten-letter a–z target, the fitness of the target itself is
`10`, and changing exactly one letter to a byte at absolute ASCII distance
`d` from the target letter scores `10 - d`. -/
theorem string_fitness_target_and_one_letter :
    (∀ data : Nat → Nat, (∀ i, i < 10 → 97 ≤ data i ∧ data i ≤ 122) →
      string_fitness data data = 10) ∧
    (∀ (data : Nat → Nat) (j b : Nat),
      (∀ i, i < 10 → 97 ≤ data i ∧ data i ≤ 122) → j < 10 →
      string_fitness data (Function.update data j b)
        = 10 - |(data j : Int) - (b : Int)|) := by
  constructor
  · intro data _
    simp [string_fitness, List.range_succ]
  · intro data j b _ hj
    interval_cases j <;>
      simp [string_fitness, List.range_succ, Function.update_apply] <;> ring

/-- Witness for C9 at the target `abcdefghij`, changing position 3 to
byte 120 (ASCII distance 20). -/
theorem string_fitness_target_and_one_letter_witness :
    string_fitness (fun i => 97 + i) (fun i => 97 + i) = 10 ∧
    string_fitness (fun i => 97 + i) (Function.update (fun i => 97 + i) 3 120)
      = 10 - |((97 + 3 : Nat) : Int) - ((120 : Nat) : Int)| :=
  ⟨string_fitness_target_and_one_letter.1 (fun i => 97 + i)
      (fun i hi => ⟨by show 97 ≤ 97 + i; omega, by show 97 + i ≤ 122; omega⟩),
   string_fitness_target_and_one_letter.2 (fun i => 97 + i) 3 120
      (fun i hi => ⟨by show 97 ≤ 97 + i; omega, by show 97 + i ≤ 122; omega⟩)
      (by omega)⟩
